import Mathlib

/-! Shallow embedding of the 6502 reference-card generator (`refcard.py`):
the opcode index built by `gen_csv`, the four views assembled by
`create_csv`, the branch view of `create_relative_csv`, and the static
per-CPU lookup data `address_mode_order`, together with theorems about
the invariants of the build-and-render pipeline.  The raw opcode table
(`cputables.processors`, generated externally) is treated as an input. -/

namespace Refcard

/-- ASCII upper-casing of a character, as Python `str.upper` acts on the
ASCII mnemonic strings appearing in the opcode tables. -/
def upperChar (c : Char) : Char :=
  if 'a' ≤ c ∧ c ≤ 'z' then Char.ofNat (c.toNat - 32) else c

/-- Model of `mnemonic.upper()` for the ASCII mnemonic strings. -/
def upperStr (s : String) : String := ⟨s.data.map upperChar⟩

/-- Lexicographic comparison of character lists by code point, the order
Python string comparison (and hence `sorted`) uses. -/
def leChars : List Char → List Char → Bool
  | [], _ => true
  | _ :: _, [] => false
  | a :: as, b :: bs =>
    if a.toNat < b.toNat then true
    else if b.toNat < a.toNat then false
    else leChars as bs

/-- Lexicographic string comparison by code point. -/
def strLe (a b : String) : Bool := leChars a.data b.data

/-- Insertion into a `strLe`-sorted list. -/
def insertSorted (x : String) : List String → List String
  | [] => [x]
  | y :: ys => if strLe x y then x :: y :: ys else y :: insertSorted x ys

/-- Model of Python `sorted` on the mnemonic keys: lexicographic by code
point. -/
def sortStrings : List String → List String
  | [] => []
  | x :: xs => insertSorted x (sortStrings xs)

/-- Decimal digit character. -/
def decChar (n : Nat) : Char := Char.ofNat (48 + n % 10)

/-- Fuel-driven accumulation of decimal digits, most significant first. -/
def decDigits : Nat → Nat → List Char → List Char
  | 0, _, acc => acc
  | fuel + 1, n, acc =>
    if n < 10 then decChar n :: acc
    else decDigits fuel (n / 10) (decChar (n % 10) :: acc)

/-- Decimal rendering of a natural number, Python `"%d"`. -/
def natStr (n : Nat) : String := ⟨decDigits (n + 1) n []⟩

/-- Hexadecimal digit character, lower case. -/
def hexChar (n : Nat) : Char :=
  if n % 16 < 10 then Char.ofNat (48 + n % 16) else Char.ofNat (87 + n % 16)

/-- Fuel-driven accumulation of hexadecimal digits. -/
def hexDigits : Nat → Nat → List Char → List Char
  | 0, _, acc => acc
  | fuel + 1, n, acc =>
    if n < 16 then hexChar n :: acc
    else hexDigits fuel (n / 16) (hexChar (n % 16) :: acc)

/-- Zero-padded lower-case hexadecimal rendering, Python `"%02x"`. -/
def hex02 (n : Nat) : String :=
  let ds := hexDigits (n + 1) n []
  ⟨List.replicate (2 - ds.length) '0' ++ ds⟩

/-- Number of comma characters in a string; comma-delimited field count is
one more than this. -/
def commaCount (s : String) : Nat := s.data.count ','

/-- Does the string end in the `+` extra-cycle marker? -/
def endsInPlus (s : String) : Bool := s.data.getLast? == some '+'

/-- Operand-syntax display titles per addressing mode (`title_modes` in the
source). -/
def title_modes : List (String × String) := [
  ("implicit", "implicit"),
  ("immediate", "#nn"),
  ("zeropage", "$nn"),
  ("zeropagex", "$nn,X"),
  ("zeropagey", "$nn,Y"),
  ("absolute", "$nnnn"),
  ("absolutex", "$nnnn,X"),
  ("absolutey", "$nnnn,Y"),
  ("indirect", "($nnnn)"),
  ("indirectx", "($nn,X)"),
  ("indirecty", "($nn),Y"),
  ("relative", "")]

/-- Python dict assignment `m[k] = v` on an association list: update in
place when the key exists, append at the end otherwise. -/
def assocSet (m : List (String × String)) (k v : String) : List (String × String) :=
  if m.any (fun p => p.1 == k) then
    m.map (fun p => if p.1 == k then (k, v) else p)
  else m ++ [(k, v)]

/-- Operand syntax strings (`operands` in the source): a copy of
`title_modes` with the implicit mode overridden to the empty string. -/
def operands : List (String × String) := assocSet title_modes "implicit" ""

/-- The per-CPU lookup data carried by one entry of `address_mode_order`. -/
structure Lookup where
  map : List (String × String)
  order : List String
  cycles : List Nat
  extra_cycles : List Nat
  status_byte_header : String
  status_byte_empty : String
  status_byte : List (String × String)

/-- The registered 6502 entry of `address_mode_order` (source lines 32-104). -/
def lookup6502 : Lookup where
  map := [("accumulator", "implicit")]
  order := [
    "implicit", "immediate", "zeropage", "zeropagex", "zeropagey",
    "absolute", "absolutex", "absolutey", "indirect", "indirectx",
    "indirecty"]
  cycles := [7, 6, 0, 0, 0, 3, 5, 0, 3, 2, 2, 0, 0, 4, 6, 0, 2, 5, 0, 0, 0, 4, 6, 0, 2, 4, 0, 0, 0, 4, 7, 0, 6, 6, 0, 0, 3, 3, 5, 0, 4, 2, 2, 0, 4, 4, 6, 0, 2, 5, 0, 0, 0, 4, 6, 0, 2, 4, 0, 0, 0, 4, 7, 0, 6, 6, 0, 0, 0, 3, 5, 0, 3, 2, 2, 0, 3, 4, 6, 0, 2, 5, 0, 0, 0, 4, 6, 0, 2, 4, 0, 0, 0, 4, 7, 0, 6, 6, 0, 0, 0, 3, 5, 0, 4, 2, 2, 0, 5, 4, 6, 0, 2, 5, 0, 0, 0, 4, 6, 0, 2, 4, 0, 0, 0, 4, 7, 0, 0, 6, 0, 0, 3, 3, 3, 0, 2, 0, 2, 0, 4, 4, 4, 0, 2, 6, 0, 0, 4, 4, 4, 0, 2, 5, 2, 0, 0, 5, 0, 0, 2, 6, 2, 0, 3, 3, 3, 0, 2, 2, 2, 0, 4, 4, 4, 0, 2, 5, 0, 0, 4, 4, 4, 0, 2, 4, 2, 0, 4, 4, 4, 0, 2, 6, 0, 0, 3, 3, 5, 0, 2, 2, 2, 0, 4, 4, 3, 0, 2, 5, 0, 0, 0, 4, 6, 0, 2, 4, 0, 0, 0, 4, 7, 0, 2, 6, 0, 0, 3, 3, 5, 0, 2, 2, 2, 0, 4, 4, 6, 0, 2, 5, 0, 0, 0, 4, 6, 0, 2, 4, 0, 0, 0, 4, 7, 0]
  extra_cycles := [0, 0, 0, 0, 0, 0, 0, 0, 0, 0, 0, 0, 0, 0, 0, 0, 2, 1, 0, 0, 0, 0, 0, 0, 0, 1, 0, 0, 0, 1, 0, 0, 0, 0, 0, 0, 0, 0, 0, 0, 0, 0, 0, 0, 0, 0, 0, 0, 2, 1, 0, 0, 0, 0, 0, 0, 0, 1, 0, 0, 0, 1, 0, 0, 0, 0, 0, 0, 0, 0, 0, 0, 0, 0, 0, 0, 0, 0, 0, 0, 2, 1, 0, 0, 0, 0, 0, 0, 0, 1, 0, 0, 0, 1, 0, 0, 0, 0, 0, 0, 0, 0, 0, 0, 0, 0, 0, 0, 0, 0, 0, 0, 2, 1, 0, 0, 0, 0, 0, 0, 0, 1, 0, 0, 0, 1, 0, 0, 0, 0, 0, 0, 0, 0, 0, 0, 0, 0, 0, 0, 0, 0, 0, 0, 2, 0, 0, 0, 0, 0, 0, 0, 0, 0, 0, 0, 0, 0, 0, 0, 0, 0, 0, 0, 0, 0, 0, 0, 0, 0, 0, 0, 0, 0, 0, 0, 2, 1, 0, 0, 0, 0, 0, 0, 0, 1, 0, 0, 1, 1, 1, 0, 0, 0, 0, 0, 0, 0, 0, 0, 0, 0, 0, 0, 0, 0, 0, 0, 2, 1, 0, 0, 0, 0, 0, 0, 0, 1, 0, 0, 0, 1, 0, 0, 0, 0, 0, 0, 0, 0, 0, 0, 0, 0, 0, 0, 0, 0, 0, 0, 2, 1, 0, 0, 0, 0, 0, 0, 0, 1, 0, 0, 0, 1, 0, 0]
  status_byte_header := "N,V,-,B,D,I,Z,C"
  status_byte_empty := ",,,,,,,"
  status_byte := [
    ("ADC", "N,V, , , , ,Z,C"),
    ("AND", "N, , , , , ,Z, "),
    ("ASL", "N, , , , , ,Z,C"),
    ("BIT", "N,V, , , , ,Z, "),
    ("BRK", " , , ,1, ,1, , "),
    ("CLC", " , , , , , , ,0"),
    ("CLD", " , , , ,0, , , "),
    ("CLI", " , , , , ,0, , "),
    ("CLV", " ,0, , , , , , "),
    ("CMP", "N, , , , , ,Z,C"),
    ("CPX", "N, , , , , ,Z,C"),
    ("CPY", "N, , , , , ,Z,C"),
    ("DEC", "N, , , , , ,Z, "),
    ("DEX", "N, , , , , ,Z, "),
    ("DEY", "N, , , , , ,Z, "),
    ("EOR", "N, , , , , ,Z, "),
    ("INC", "N, , , , , ,Z, "),
    ("INX", "N, , , , , ,Z, "),
    ("INY", "N, , , , , ,Z, "),
    ("JMP", " , , , , , , , "),
    ("JSR", " , , , , , , , "),
    ("LDA", "N, , , , , ,Z, "),
    ("LDX", "N, , , , , ,Z, "),
    ("LDY", "N, , , , , ,Z, "),
    ("LSR", "N, , , , , ,Z,C"),
    ("NOP", " , , , , , , , "),
    ("ORA", "N, , , , , ,Z, "),
    ("PHA", " , , , , , , , "),
    ("PHP", " , , , , , , , "),
    ("PLA", "N, , , , , ,Z, "),
    ("PLP", "N,V, , ,D,I,Z,C"),
    ("ROL", "N, , , , , ,Z,C"),
    ("ROR", "N, , , , , ,Z,C"),
    ("RTI", "N,V, , ,D,I,Z,C"),
    ("RTS", " , , , , , , , "),
    ("SBC", "N,V, , , , ,Z,C"),
    ("SEC", " , , , , , , ,1"),
    ("SED", " , , , ,1, , , "),
    ("SEI", " , , , , ,1, , "),
    ("STA", " , , , , , , , "),
    ("STX", " , , , , , , , "),
    ("STY", " , , , , , , , "),
    ("TAX", "N, , , , , ,Z, "),
    ("TAY", "N, , , , , ,Z, "),
    ("TSX", "N, , , , , ,Z, "),
    ("TXA", "N, , , , , ,Z, "),
    ("TXS", " , , , , , , , "),
    ("TYA", "N, , , , , ,Z, ")]

/-- The registered per-CPU lookup table `address_mode_order`: only the 6502
has data. -/
def address_mode_order : List (String × Lookup) := [("6502", lookup6502)]

/-- A lookup sharing the 6502 aliasing map but with different (empty) cycle
tables, used to exercise that index membership ignores cycle data. -/
def lookup6502NoCycles : Lookup where
  map := [("accumulator", "implicit")]
  order := []
  cycles := []
  extra_cycles := []
  status_byte_header := ""
  status_byte_empty := ""
  status_byte := []

/-- The undocumented-opcode bit of the flag field (`flag_undoc` in the
source). -/
def flag_undoc : Nat := 128

/-- One raw opcode-table entry.  The source unpacks either a four-field
tuple `(num_bytes, mnemonic, mode_name, flag)` or, on `ValueError`, a
three-field tuple with the flag then taken to be `0`. -/
inductive OpEntry where
  | three (numBytes : Nat) (mnemonic modeName : String)
  | four (numBytes : Nat) (mnemonic modeName : String) (flag : Nat)
deriving DecidableEq

/-- The four unpacked fields of a raw entry; a three-field entry carries
flag `0`. -/
def OpEntry.fields : OpEntry → Nat × String × String × Nat
  | .three nb m mo => (nb, m, mo, 0)
  | .four nb m mo f => (nb, m, mo, f)

/-- A raw opcode table: opcode values paired with their entries. -/
abbrev RawTable := List (Nat × OpEntry)

/-- The per-mnemonic addressing-mode dictionary of the built index. -/
abbrev ModeMap := List (String × String)

/-- The built index `d`: mnemonic to mode dictionary. -/
abbrev Index := List (String × ModeMap)

/-- Is the slot admitted by the undocumented-opcode policy
(`allow_undocumented or not flag & flag_undoc`)? -/
def includedSlot (allowUndocumented : Bool) (e : OpEntry) : Bool :=
  allowUndocumented || e.fields.2.2.2 &&& flag_undoc == 0

/-- The mode name after applying the CPU's aliasing map
(`lookup['map'].get(mode_name, mode_name)`). -/
def aliasedMode (lk : Lookup) (e : OpEntry) : String :=
  (List.lookup e.fields.2.2.1 lk.map).getD e.fields.2.2.1

/-- The cycle portion `"%d%s"` of a stored record: base cycles from the
cycle table, with a trailing `+` exactly when the extra-cycle table entry
is positive. -/
def cycleField (lk : Lookup) (opcode : Nat) : String :=
  natStr (lk.cycles.getD opcode 0) ++
    (if 0 < lk.extra_cycles.getD opcode 0 then "+" else "")

/-- The stored record string `"%02x,%d%s,%d,"` of source line 153. -/
def recordStr (lk : Lookup) (opcode numBytes : Nat) : String :=
  hex02 opcode ++ "," ++ cycleField lk opcode ++ "," ++ natStr numBytes ++ ","

/-- Python `d[mnemonic][mode] = v` on the two-level index dictionary. -/
def dictSet (d : Index) (m mo v : String) : Index :=
  if d.any (fun p => p.1 == m) then
    d.map (fun p => if p.1 == m then (m, assocSet p.2 mo v) else p)
  else d ++ [(m, [(mo, v)])]

/-- One iteration of the table loop in `gen_csv` (source lines 144-155). -/
def buildStep (lk : Lookup) (allowUndocumented : Bool) (d : Index)
    (slot : Nat × OpEntry) : Index :=
  if includedSlot allowUndocumented slot.2 then
    dictSet d (upperStr slot.2.fields.2.1) (aliasedMode lk slot.2)
      (recordStr lk slot.1 slot.2.fields.1)
  else d

/-- The opcode index `d` built by `gen_csv` from the raw table. -/
def buildIndex (lk : Lookup) (allowUndocumented : Bool) (table : RawTable) : Index :=
  table.foldl (buildStep lk allowUndocumented) []

/-- Status-byte row for a mnemonic:
`lookup['status_byte'].get(mnemonic, lookup['status_byte_empty'])`. -/
def statusOf (lk : Lookup) (m : String) : String :=
  (List.lookup m lk.status_byte).getD lk.status_byte_empty

/-- Display title of an addressing mode (`title_modes[mode_name]`; all uses
in the source are at registered catalog modes). -/
def titleOf (mo : String) : String := (List.lookup mo title_modes).getD ""

/-- Operand syntax of an addressing mode (`operands[mode_name]`; all uses
in the source are at registered catalog modes). -/
def operandOf (mo : String) : String := (List.lookup mo operands).getD ""

/-- The accumulating per-mnemonic state of the `create_csv` main loop. -/
structure PerRows where
  firstLine : String
  secondLine : String
  implicitLine : String
  compactLine : String
  listRows : List String
  foundMode : Nat
  foundImplicit : Bool
deriving DecidableEq

/-- One iteration of the `for mode_name in order` loop of `create_csv`
(source lines 200-214). -/
def modeStep (lk : Lookup) (mi : ModeMap) (m : String) (acc : PerRows)
    (modeName : String) : PerRows :=
  match List.lookup modeName mi with
  | some info =>
    { firstLine := acc.firstLine ++ "\"" ++ m ++ " " ++ operandOf modeName ++ "\",,,"
      secondLine := acc.secondLine ++ info
      implicitLine := acc.implicitLine ++ info
      compactLine := acc.compactLine ++ info
      listRows := acc.listRows ++
        ["\"" ++ m ++ " " ++ operandOf modeName ++ "\"," ++ statusOf lk m ++ "," ++ info]
      foundMode := acc.foundMode + 1
      foundImplicit := acc.foundImplicit || modeName == "implicit" }
  | none =>
    { acc with
      firstLine := acc.firstLine ++ ",,,"
      secondLine := acc.secondLine ++ ",,,"
      compactLine := acc.compactLine ++ ",,," }

/-- The per-mnemonic accumulators before the mode loop (source lines
194-199). -/
def initRows (lk : Lookup) (m : String) : PerRows :=
  let firstLine := m ++ "," ++ statusOf lk m ++ ","
  { firstLine := firstLine
    secondLine := "," ++ lk.status_byte_empty ++ ","
    implicitLine := firstLine
    compactLine := firstLine
    listRows := []
    foundMode := 0
    foundImplicit := false }

/-- The per-mnemonic accumulators after the mode loop of `create_csv`. -/
def perMnemonic (lk : Lookup) (mi : ModeMap) (m : String) : PerRows :=
  lk.order.foldl (modeStep lk mi m) (initRows lk m)

/-- The shared column-title header of the full and compact matrices. -/
def matrixHeader (lk : Lookup) : String :=
  lk.order.foldl (fun s mo => s ++ "\"" ++ titleOf mo ++ "\",,,")
    ("Opcode," ++ lk.status_byte_header ++ ",")

/-- Routing condition for the implicit-only view:
`found_mode` nonzero, `found_implicit` and `found_mode == 1`. -/
def emitImplicit (r : PerRows) : Bool :=
  r.foundMode != 0 && (r.foundImplicit && r.foundMode == 1)

/-- Routing condition for the full/compact matrices: `found_mode` nonzero
and not the implicit-only special case. -/
def emitMatrix (r : PerRows) : Bool :=
  r.foundMode != 0 && !(r.foundImplicit && r.foundMode == 1)

/-- Mode dictionary of a mnemonic in the built index (`d[mnemonic]`). -/
def modeInfoOf (d : Index) (m : String) : ModeMap := (List.lookup m d).getD []

/-- The mnemonic keys of the index in Python `sorted` order. -/
def sortedKeys (d : Index) : List String := sortStrings (d.map Prod.fst)

/-- Accumulated rows of one mnemonic of the built index. -/
def rowsFor (lk : Lookup) (d : Index) (m : String) : PerRows :=
  perMnemonic lk (modeInfoOf d m) m

/-- The flat-list row appended for a relative-mode record (source lines
215-217). -/
def relListRow (lk : Lookup) (m info : String) : String :=
  "\"" ++ m ++ " " ++ operandOf "relative" ++ "\"," ++ statusOf lk m ++ "," ++ info

/-- The trailing relative-mode flat-list row of a mnemonic, when present. -/
def relExtra (lk : Lookup) (d : Index) (m : String) : List String :=
  match List.lookup "relative" (modeInfoOf d m) with
  | some info => [relListRow lk m info]
  | none => []

/-- Everything before the first comma, Python `s.split(",", 1)[0]`. -/
def firstField (s : String) : String := ⟨s.data.takeWhile (fun c => c != ',')⟩

/-- The five rendered views, in the order the program prints them. -/
structure Views where
  main : List String
  compact : List String
  implicitOnly : List String
  flat : List String
  branch : List String
deriving DecidableEq

/-- The four views assembled by `create_csv` (source lines 177-230) plus
the branch view of `create_relative_csv` (source lines 167-175). -/
def mkViews (lk : Lookup) (d : Index) : Views :=
  let ms := sortedKeys d
  { main := matrixHeader lk ::
      ms.flatMap (fun m =>
        let r := rowsFor lk d m
        if emitMatrix r then [r.firstLine, r.secondLine] else [])
    compact := matrixHeader lk ::
      ms.flatMap (fun m =>
        let r := rowsFor lk d m
        if emitMatrix r then [r.compactLine] else [])
    implicitOnly := ("Opcode," ++ lk.status_byte_header ++ "," ++ "Hex,C,B") ::
      ms.flatMap (fun m =>
        let r := rowsFor lk d m
        if emitImplicit r then [r.implicitLine] else [])
    flat := ms.flatMap (fun m => (rowsFor lk d m).listRows ++ relExtra lk d m)
    branch := "Opcode,Hex,,N,T,P" ::
      ms.filterMap (fun m =>
        (List.lookup "relative" (modeInfoOf d m)).map
          (fun info => m ++ "," ++ firstField info ++ ",,2,3,4")) }

/-- Failure of the pipeline: the selected CPU identifier has no registered
data (Python `KeyError` on either table). -/
inductive GenError where
  | unknownCpu
deriving DecidableEq

/-- Top-level pipeline `gen_csv(cpu_name, allow_undocumented)`: looks up
the processor table and the per-CPU lookup data, aborting before any view
is produced when either is missing, then builds the index and renders the
five views. -/
def gen_csv (processors : List (String × RawTable)) (cpuName : String)
    (allowUndocumented : Bool) : Except GenError Views :=
  match List.lookup cpuName processors with
  | none => .error .unknownCpu
  | some table =>
    match List.lookup cpuName address_mode_order with
    | none => .error .unknownCpu
    | some lk => .ok (mkViews lk (buildIndex lk allowUndocumented table))

/-- The mnemonics routed to the implicit-only view. -/
def implicitMnemonics (lk : Lookup) (d : Index) : List String :=
  (sortedKeys d).filter (fun m => emitImplicit (rowsFor lk d m))

/-- The mnemonics routed to the full/compact matrices. -/
def matrixMnemonics (lk : Lookup) (d : Index) : List String :=
  (sortedKeys d).filter (fun m => emitMatrix (rowsFor lk d m))

/-- Total number of populated (mnemonic, mode) pairs in the index. -/
def pairCount (d : Index) : Nat := (d.map (fun p => p.2.length)).sum

/-- The shape of the index: its mnemonics with their mode keys, forgetting
the record strings. -/
def indexShape (d : Index) : List (String × List String) :=
  d.map (fun p => (p.1, p.2.map Prod.fst))

/-- The canonical key a slot contributes to the index: upper-cased mnemonic
and aliased mode name. -/
def slotKey (lk : Lookup) (s : Nat × OpEntry) : String × String :=
  (upperStr s.2.fields.2.1, aliasedMode lk s.2)

/-- All (mnemonic, mode) key pairs of the index, in order. -/
def keyPairs (d : Index) : List (String × String) :=
  d.flatMap (fun p => p.2.map (fun q => (p.1, q.1)))

/-- The canonical keys of the slots admitted by the undocumented policy. -/
def includedKeys (lk : Lookup) (u : Bool) (t : RawTable) : List (String × String) :=
  (t.filter (fun s => includedSlot u s.2)).map (slotKey lk)

/-- Effect of a dictionary assignment on the inner key list alone. -/
def modeKeySet (ks : List String) (mo : String) : List String :=
  if ks.any (fun k => k == mo) then ks else ks ++ [mo]

/-- Effect of a dictionary assignment on the index shape alone: the stored
record string plays no part. -/
def shapeSet (s : List (String × List String)) (m mo : String) :
    List (String × List String) :=
  if s.any (fun p => p.1 == m) then
    s.map (fun p => if p.1 == m then (m, modeKeySet p.2 mo) else p)
  else s ++ [(m, [mo])]

/-- The flat-list row `create_csv` appends for a populated mode of a
mnemonic. -/
def flatRowOf (lk : Lookup) (mi : ModeMap) (m mo : String) : String :=
  "\"" ++ m ++ " " ++ operandOf mo ++ "\"," ++ statusOf lk m ++ "," ++
    (List.lookup mo mi).getD ""

/-- The ordering proposition underlying `strLe`. -/
def strLeP (a b : String) : Prop := strLe a b = true

/-- A small raw table exercising all routing paths: an implicit-only
mnemonic, a relative-only branch, an accumulator slot aliased to implicit,
and a plain immediate slot. -/
def sampleTable : RawTable := [
  (0, OpEntry.three 1 "brk" "implicit"),
  (16, OpEntry.three 2 "BPL" "relative"),
  (10, OpEntry.three 1 "ASL" "accumulator"),
  (9, OpEntry.four 2 "ORA" "immediate" 0)]

/-- One mode dictionary refines another when every entry of the first is
found unchanged by lookup in the second. -/
def innerSub (a b : ModeMap) : Prop := ∀ p ∈ a, List.lookup p.1 b = some p.2

instance innerSub_decidable (a b : ModeMap) : Decidable (innerSub a b) :=
  List.decidableBAll _ a

/-- Two indexes have the same content: the same multiset of mnemonic keys,
and entries with equal keys carry mode dictionaries that agree as finite
maps. -/
def indexEquiv (d1 d2 : Index) : Prop :=
  (d1.map Prod.fst).Perm (d2.map Prod.fst) ∧
    ∀ p ∈ d1, ∀ q ∈ d2, p.1 = q.1 → innerSub p.2 q.2 ∧ innerSub q.2 p.2

instance indexEquiv_decidable (d1 d2 : Index) : Decidable (indexEquiv d1 d2) :=
  instDecidableAnd

section StringLemmas

theorem data_append (a b : String) : (a ++ b).data = a.data ++ b.data := rfl

theorem str_eq_of_data {a b : String} (h : a.data = b.data) : a = b := by
  cases a; cases b; exact congrArg String.mk h

theorem commaCount_append (a b : String) :
    commaCount (a ++ b) = commaCount a + commaCount b := by
  simp [commaCount, data_append]

theorem decChar_ne_comma (n : Nat) : decChar n ≠ ',' := by
  show Char.ofNat (48 + n % 10) ≠ ','
  have h : n % 10 < 10 := Nat.mod_lt _ (by norm_num)
  revert h
  generalize n % 10 = r
  intro h
  interval_cases r <;> decide

theorem decChar_ne_plus (n : Nat) : decChar n ≠ '+' := by
  show Char.ofNat (48 + n % 10) ≠ '+'
  have h : n % 10 < 10 := Nat.mod_lt _ (by norm_num)
  revert h
  generalize n % 10 = r
  intro h
  interval_cases r <;> decide

theorem hexChar_ne_comma (n : Nat) : hexChar n ≠ ',' := by
  show (if n % 16 < 10 then Char.ofNat (48 + n % 16) else Char.ofNat (87 + n % 16)) ≠ ','
  have h : n % 16 < 16 := Nat.mod_lt _ (by norm_num)
  revert h
  generalize n % 16 = r
  intro h
  interval_cases r <;> decide

theorem decDigits_count_comma (fuel n : Nat) (acc : List Char) :
    (decDigits fuel n acc).count ',' = acc.count ',' := by
  induction fuel generalizing n acc with
  | zero => simp [decDigits]
  | succ f ih =>
    by_cases h : n < 10
    · simp [decDigits, h, List.count_cons, decChar_ne_comma n]
    · rw [decDigits]
      simp only [h, if_false]
      rw [ih]
      simp [List.count_cons, decChar_ne_comma (n % 10)]

theorem commaCount_natStr (n : Nat) : commaCount (natStr n) = 0 := by
  simp [commaCount, natStr, decDigits_count_comma]

theorem hexDigits_count_comma (fuel n : Nat) (acc : List Char) :
    (hexDigits fuel n acc).count ',' = acc.count ',' := by
  induction fuel generalizing n acc with
  | zero => simp [hexDigits]
  | succ f ih =>
    by_cases h : n < 16
    · simp [hexDigits, h, List.count_cons, hexChar_ne_comma n]
    · rw [hexDigits]
      simp only [h, if_false]
      rw [ih]
      simp [List.count_cons, hexChar_ne_comma (n % 16)]

theorem commaCount_hex02 (n : Nat) : commaCount (hex02 n) = 0 := by
  simp only [commaCount, hex02, List.count_append, hexDigits_count_comma]
  have : List.count ',' (List.replicate (2 - (hexDigits (n + 1) n []).length) '0') = 0 := by
    simp [List.count_replicate]
  simp [this]

theorem decDigits_factor (fuel n : Nat) (acc : List Char) :
    decDigits fuel n acc = decDigits fuel n [] ++ acc := by
  induction fuel generalizing n acc with
  | zero => simp [decDigits]
  | succ f ih =>
    by_cases h : n < 10
    · simp [decDigits, h]
    · rw [decDigits]
      simp only [h, if_false]
      rw [ih, decDigits]
      simp only [h, if_false]
      rw [ih (n / 10) [decChar (n % 10)]]
      simp

theorem natStr_concat (n : Nat) :
    ∃ l, (natStr n).data = l ++ [decChar (n % 10)] := by
  by_cases h : n < 10
  · refine ⟨[], ?_⟩
    have hm : n % 10 = n := Nat.mod_eq_of_lt h
    simp [natStr, decDigits, h, hm]
  · refine ⟨decDigits n (n / 10) [], ?_⟩
    show decDigits (n + 1) n [] = _
    rw [decDigits]
    simp only [h, if_false]
    rw [decDigits_factor]

theorem endsInPlus_natStr (n : Nat) : endsInPlus (natStr n) = false := by
  obtain ⟨l, hl⟩ := natStr_concat n
  simp [endsInPlus, hl, List.getLast?_concat, decChar_ne_plus (n % 10)]

theorem append_empty_str (a : String) : a ++ "" = a := by
  apply str_eq_of_data
  simp [data_append]

theorem endsInPlus_append_plus (a : String) : endsInPlus (a ++ "+") = true := by
  have : (a ++ "+").data = a.data ++ ['+'] := rfl
  simp [endsInPlus, this, List.getLast?_concat]

/-- The rendered cycle portion carries the `+` marker exactly when the
extra-cycle table entry at the opcode is positive. -/
theorem endsInPlus_cycleField (lk : Lookup) (op : Nat) :
    endsInPlus (cycleField lk op) = decide (0 < lk.extra_cycles.getD op 0) := by
  unfold cycleField
  by_cases h : 0 < lk.extra_cycles.getD op 0
  · rw [if_pos h, endsInPlus_append_plus, decide_eq_true h]
  · rw [if_neg h, append_empty_str, endsInPlus_natStr, decide_eq_false h]

theorem commaCount_cycleField (lk : Lookup) (op : Nat) :
    commaCount (cycleField lk op) = 0 := by
  unfold cycleField
  by_cases h : 0 < lk.extra_cycles.getD op 0
  · rw [if_pos h, commaCount_append, commaCount_natStr]
    decide
  · rw [if_neg h, append_empty_str, commaCount_natStr]

theorem commaCount_comma : commaCount "," = 1 := by decide

theorem commaCount_recordStr (lk : Lookup) (op nb : Nat) :
    commaCount (recordStr lk op nb) = 3 := by
  simp [recordStr, commaCount_append, commaCount_hex02, commaCount_cycleField,
    commaCount_natStr, commaCount_comma]

end StringLemmas

section AssocLemmas

variable {β : Type}

theorem lookup_mem {l : List (String × β)} {k : String} {v : β}
    (h : List.lookup k l = some v) : (k, v) ∈ l := by
  induction l with
  | nil => simp [List.lookup] at h
  | cons p l ih =>
    obtain ⟨pk, pv⟩ := p
    by_cases hk : k = pk
    · subst hk
      simp [List.lookup] at h
      simp [h]
    · have hk' : (k == pk) = false := beq_false_of_ne hk
      rw [List.lookup, hk'] at h
      exact List.mem_cons_of_mem _ (ih h)

theorem lookup_eq_none_iff {l : List (String × β)} {k : String} :
    List.lookup k l = none ↔ k ∉ l.map Prod.fst := by
  induction l with
  | nil => simp [List.lookup]
  | cons p l ih =>
    obtain ⟨pk, pv⟩ := p
    by_cases hk : k = pk
    · subst hk
      simp [List.lookup]
    · have hk' : (k == pk) = false := beq_false_of_ne hk
      rw [List.lookup, hk']
      simp [ih, hk]

theorem lookup_isSome_iff {l : List (String × β)} {k : String} :
    (List.lookup k l).isSome = true ↔ k ∈ l.map Prod.fst := by
  rcases h : List.lookup k l with _ | v
  · simpa [h] using (lookup_eq_none_iff.mp h)
  · simp only [h, Option.isSome_some, true_iff]
    exact List.mem_map.mpr ⟨(k, v), lookup_mem h, rfl⟩

theorem mem_lookup {l : List (String × β)} {k : String} {v : β}
    (hn : (l.map Prod.fst).Nodup) (h : (k, v) ∈ l) : List.lookup k l = some v := by
  induction l with
  | nil => simp at h
  | cons p l ih =>
    obtain ⟨pk, pv⟩ := p
    rcases List.mem_cons.mp h with h1 | h1
    · obtain ⟨h2, h3⟩ := Prod.mk.injEq .. ▸ h1
      subst h2; subst h3
      simp [List.lookup]
    · have hk : k ≠ pk := by
        rintro rfl
        exact (List.nodup_cons.mp hn).1 (List.mem_map.mpr ⟨(k, v), h1, rfl⟩)
      have hk' : (k == pk) = false := beq_false_of_ne hk
      rw [List.lookup, hk']
      exact ih (List.nodup_cons.mp hn).2 h1

theorem any_key_iff {l : List (String × β)} {k : String} :
    l.any (fun p => p.1 == k) = true ↔ k ∈ l.map Prod.fst := by
  simp only [List.any_eq_true, List.mem_map]
  constructor
  · rintro ⟨p, hp, he⟩
    exact ⟨p, hp, (eq_of_beq he)⟩
  · rintro ⟨p, hp, he⟩
    exact ⟨p, hp, beq_iff_eq.mpr he⟩

end AssocLemmas

section IndexLemmas

theorem assocSet_keys (mi : ModeMap) (k v : String) :
    (assocSet mi k v).map Prod.fst =
      if mi.any (fun p => p.1 == k) then mi.map Prod.fst
      else mi.map Prod.fst ++ [k] := by
  unfold assocSet
  by_cases h : mi.any (fun p => p.1 == k)
  · rw [if_pos h, if_pos h, List.map_map]
    refine List.map_congr_left ?_
    intro p _
    by_cases hp : p.1 = k <;> simp [Function.comp_apply, hp]
  · rw [if_neg h, if_neg h, List.map_append]
    rfl

theorem dictSet_keys (d : Index) (m mo v : String) :
    (dictSet d m mo v).map Prod.fst =
      if d.any (fun p => p.1 == m) then d.map Prod.fst
      else d.map Prod.fst ++ [m] := by
  unfold dictSet
  by_cases h : d.any (fun p => p.1 == m)
  · rw [if_pos h, if_pos h, List.map_map]
    refine List.map_congr_left ?_
    intro p _
    by_cases hp : p.1 = m <;> simp [Function.comp_apply, hp]
  · rw [if_neg h, if_neg h, List.map_append]
    rfl

theorem assocSet_keys_nodup {mi : ModeMap} (h : (mi.map Prod.fst).Nodup)
    (k v : String) : ((assocSet mi k v).map Prod.fst).Nodup := by
  rw [assocSet_keys]
  by_cases hk : mi.any (fun p => p.1 == k)
  · rwa [if_pos hk]
  · rw [if_neg hk]
    have : k ∉ mi.map Prod.fst := fun hm => hk (any_key_iff.mpr hm)
    simp [List.nodup_append, h, this]

theorem dictSet_keys_nodup {d : Index} (h : (d.map Prod.fst).Nodup)
    (m mo v : String) : ((dictSet d m mo v).map Prod.fst).Nodup := by
  rw [dictSet_keys]
  by_cases hm : d.any (fun p => p.1 == m)
  · rwa [if_pos hm]
  · rw [if_neg hm]
    have : m ∉ d.map Prod.fst := fun hmem => hm (any_key_iff.mpr hmem)
    simp [List.nodup_append, h, this]

theorem assocSet_mem {mi : ModeMap} {q : String × String} {k v : String}
    (h : q ∈ assocSet mi k v) : q ∈ mi ∨ q = (k, v) := by
  unfold assocSet at h
  by_cases hk : mi.any (fun p => p.1 == k)
  · rw [if_pos hk] at h
    obtain ⟨p, hp, he⟩ := List.mem_map.mp h
    by_cases hpk : p.1 == k
    · right
      rw [if_pos hpk] at he
      exact he.symm
    · left
      rw [if_neg (by simpa using hpk)] at he
      exact he ▸ hp
  · rw [if_neg hk] at h
    rcases List.mem_append.mp h with h1 | h1
    · exact Or.inl h1
    · exact Or.inr (List.mem_singleton.mp h1)

theorem dictSet_entry_cases {d : Index} {m m' mo v : String} {mi : ModeMap}
    (h : (m, mi) ∈ dictSet d m' mo v) :
    (m, mi) ∈ d ∨
      (∃ mi0, (m, mi0) ∈ d ∧ m = m' ∧ mi = assocSet mi0 mo v) ∨
      (m = m' ∧ mi = [(mo, v)]) := by
  unfold dictSet at h
  by_cases hk : d.any (fun p => p.1 == m')
  · rw [if_pos hk] at h
    obtain ⟨p, hp, he⟩ := List.mem_map.mp h
    by_cases hpk : p.1 == m'
    · rw [if_pos hpk] at he
      obtain ⟨h1, h2⟩ := Prod.mk.injEq .. ▸ he.symm
      right; left
      refine ⟨p.2, ?_, h1, h2⟩
      rw [h1, ← eq_of_beq hpk]
      exact hp
    · rw [if_neg (by simpa using hpk)] at he
      exact Or.inl (he ▸ hp)
  · rw [if_neg hk] at h
    rcases List.mem_append.mp h with h1 | h1
    · exact Or.inl h1
    · obtain ⟨h2, h3⟩ := Prod.mk.injEq .. ▸ List.mem_singleton.mp h1
      exact Or.inr (Or.inr ⟨h2, h3⟩)

theorem buildStep_value {lk : Lookup} {u : Bool} {d : Index}
    {slot : Nat × OpEntry} {m : String} {mi : ModeMap} {q : String × String}
    (hm : (m, mi) ∈ buildStep lk u d slot) (hq : q ∈ mi) :
    (∃ mi0, (m, mi0) ∈ d ∧ q ∈ mi0) ∨
      (includedSlot u slot.2 = true ∧ m = upperStr slot.2.fields.2.1 ∧
        q = (aliasedMode lk slot.2, recordStr lk slot.1 slot.2.fields.1)) := by
  unfold buildStep at hm
  by_cases hin : includedSlot u slot.2
  · rw [if_pos hin] at hm
    rcases dictSet_entry_cases hm with h1 | ⟨mi0, h1, h2, h3⟩ | ⟨h2, h3⟩
    · exact Or.inl ⟨mi, h1, hq⟩
    · subst h3
      rcases assocSet_mem hq with h4 | h4
      · exact Or.inl ⟨mi0, h1, h4⟩
      · exact Or.inr ⟨hin, h2, h4⟩
    · subst h3
      exact Or.inr ⟨hin, h2, List.mem_singleton.mp hq⟩
  · rw [if_neg hin] at hm
    exact Or.inl ⟨mi, hm, hq⟩

theorem foldl_buildStep_value {lk : Lookup} {u : Bool} {t : RawTable} :
    ∀ {d : Index} {m : String} {mi : ModeMap} {q : String × String},
      (m, mi) ∈ t.foldl (buildStep lk u) d → q ∈ mi →
      (∃ mi0, (m, mi0) ∈ d ∧ q ∈ mi0) ∨
        ∃ s ∈ t, includedSlot u s.2 = true ∧ m = upperStr s.2.fields.2.1 ∧
          q = (aliasedMode lk s.2, recordStr lk s.1 s.2.fields.1) := by
  induction t with
  | nil =>
    intro d m mi q hm hq
    exact Or.inl ⟨mi, hm, hq⟩
  | cons s t ih =>
    intro d m mi q hm hq
    rcases ih (by simpa using hm) hq with ⟨mi0, h1, h2⟩ | ⟨s', h1, h2⟩
    · rcases buildStep_value h1 h2 with h3 | h3
      · exact Or.inl h3
      · exact Or.inr ⟨s, List.mem_cons_self .., h3⟩
    · exact Or.inr ⟨s', List.mem_cons_of_mem _ h1, h2⟩

/-- Provenance of every populated index cell: it comes from some raw-table
slot, carrying that slot's canonical key and record string. -/
theorem buildIndex_provenance {lk : Lookup} {u : Bool} {t : RawTable}
    {m : String} {mi : ModeMap} {q : String × String}
    (hm : (m, mi) ∈ buildIndex lk u t) (hq : q ∈ mi) :
    ∃ s ∈ t, includedSlot u s.2 = true ∧ m = upperStr s.2.fields.2.1 ∧
      q = (aliasedMode lk s.2, recordStr lk s.1 s.2.fields.1) := by
  rcases foldl_buildStep_value hm hq with ⟨mi0, h1, _⟩ | h
  · simp at h1
  · exact h

theorem buildIndex_keys_nodup (lk : Lookup) (u : Bool) (t : RawTable) :
    ((buildIndex lk u t).map Prod.fst).Nodup := by
  suffices h : ∀ (l : RawTable) (d : Index), (d.map Prod.fst).Nodup →
      ((l.foldl (buildStep lk u) d).map Prod.fst).Nodup by
    exact h t [] (by simp)
  intro l
  induction l with
  | nil => intro d hd; simpa using hd
  | cons s l ih =>
    intro d hd
    refine ih _ ?_
    unfold buildStep
    by_cases hin : includedSlot u s.2
    · rw [if_pos hin]
      exact dictSet_keys_nodup hd _ _ _
    · rwa [if_neg hin]

theorem assocSet_inner_nodup {mi : ModeMap} (h : (mi.map Prod.fst).Nodup)
    (k v : String) : ((assocSet mi k v).map Prod.fst).Nodup :=
  assocSet_keys_nodup h k v

/-- Every mode dictionary of the built index has pairwise-distinct mode
keys. -/
theorem buildIndex_inner_nodup (lk : Lookup) (u : Bool) (t : RawTable) :
    ∀ p ∈ buildIndex lk u t, ((p.2.map Prod.fst) : List String).Nodup := by
  suffices h : ∀ (l : RawTable) (d : Index),
      (∀ p ∈ d, ((p.2.map Prod.fst) : List String).Nodup) →
      ∀ p ∈ l.foldl (buildStep lk u) d, ((p.2.map Prod.fst) : List String).Nodup by
    exact h t [] (by simp)
  intro l
  induction l with
  | nil => intro d hd; simpa using hd
  | cons s l ih =>
    intro d hd
    refine ih _ ?_
    intro p hp
    unfold buildStep at hp
    by_cases hin : includedSlot u s.2
    · rw [if_pos hin] at hp
      obtain ⟨m, mi⟩ := p
      rcases dictSet_entry_cases hp with h1 | ⟨mi0, h1, _, h3⟩ | ⟨_, h3⟩
      · exact hd _ h1
      · subst h3
        exact assocSet_inner_nodup (hd _ h1) _ _
      · subst h3
        simp
    · rw [if_neg hin] at hp
      exact hd _ hp

end IndexLemmas

section SortLemmas

theorem leChars_total : ∀ a b : List Char, leChars a b = true ∨ leChars b a = true
  | [], _ => Or.inl rfl
  | _ :: _, [] => Or.inr rfl
  | a :: as, b :: bs => by
    rw [leChars, leChars]
    by_cases h1 : a.toNat < b.toNat
    · left
      simp [h1]
    · by_cases h2 : b.toNat < a.toNat
      · right
        simp [h2]
      · rcases leChars_total as bs with h | h
        · left; simp [h1, h2, h]
        · right; simp [h1, h2, h]

theorem leChars_trans : ∀ {a b c : List Char},
    leChars a b = true → leChars b c = true → leChars a c = true := by
  intro a
  induction a with
  | nil => intro b c _ _; rfl
  | cons x xs ih =>
    intro b c hab hbc
    cases b with
    | nil => simp [leChars] at hab
    | cons y ys =>
      cases c with
      | nil => simp [leChars] at hbc
      | cons z zs =>
        rw [leChars] at hab hbc ⊢
        by_cases h1 : x.toNat < y.toNat
        · by_cases h2 : y.toNat < z.toNat
          · simp [show x.toNat < z.toNat by omega]
          · by_cases h3 : z.toNat < y.toNat
            · simp [h2, h3] at hbc
            · simp [show x.toNat < z.toNat by omega]
        · by_cases h4 : y.toNat < x.toNat
          · simp [h1, h4] at hab
          · by_cases h2 : y.toNat < z.toNat
            · simp [show x.toNat < z.toNat by omega]
            · by_cases h3 : z.toNat < y.toNat
              · simp [h2, h3] at hbc
              · have hxz1 : ¬ x.toNat < z.toNat := by omega
                have hxz2 : ¬ z.toNat < x.toNat := by omega
                simp only [hxz1, if_false, hxz2]
                simp only [h1, if_false, h4] at hab
                simp only [h2, if_false, h3] at hbc
                exact ih hab hbc

theorem char_eq_of_toNat_eq {a b : Char} (h : a.toNat = b.toNat) : a = b := by
  unfold Char.toNat at h
  exact Char.eq_of_val_eq (UInt32.eq_of_toBitVec_eq (BitVec.eq_of_toNat_eq h))

theorem leChars_antisymm : ∀ {a b : List Char},
    leChars a b = true → leChars b a = true → a = b := by
  intro a
  induction a with
  | nil =>
    intro b _ hba
    cases b with
    | nil => rfl
    | cons y ys => simp [leChars] at hba
  | cons x xs ih =>
    intro b hab hba
    cases b with
    | nil => simp [leChars] at hab
    | cons y ys =>
      rw [leChars] at hab hba
      by_cases h1 : x.toNat < y.toNat
      · simp [show ¬ y.toNat < x.toNat by omega, h1] at hba
      · by_cases h2 : y.toNat < x.toNat
        · simp [h1, h2] at hab
        · have hxy : x = y := char_eq_of_toNat_eq (by omega)
          simp only [h1, if_false, h2] at hab
          simp only [show ¬ y.toNat < x.toNat from h2, if_false,
            show ¬ x.toNat < y.toNat from h1] at hba
          rw [hxy, ih hab hba]

theorem strLe_total (a b : String) : strLe a b = true ∨ strLe b a = true :=
  leChars_total a.data b.data

theorem strLe_trans {a b c : String} (h1 : strLe a b = true)
    (h2 : strLe b c = true) : strLe a c = true :=
  leChars_trans h1 h2

theorem strLe_antisymm {a b : String} (h1 : strLe a b = true)
    (h2 : strLe b a = true) : a = b :=
  str_eq_of_data (leChars_antisymm h1 h2)

theorem mem_insertSorted {b x : String} : ∀ {l : List String},
    b ∈ insertSorted x l ↔ b = x ∨ b ∈ l := by
  intro l
  induction l with
  | nil => simp [insertSorted]
  | cons y ys ih =>
    rw [insertSorted]
    by_cases h : strLe x y
    · rw [if_pos h]
      simp
    · rw [if_neg h]
      simp only [List.mem_cons, ih]
      tauto

theorem insertSorted_perm (x : String) : ∀ l : List String,
    (insertSorted x l).Perm (x :: l) := by
  intro l
  induction l with
  | nil => simp [insertSorted]
  | cons y ys ih =>
    rw [insertSorted]
    by_cases h : strLe x y
    · rw [if_pos h]
    · rw [if_neg h]
      exact List.Perm.trans (List.Perm.cons y ih) (List.Perm.swap x y ys)

theorem pairwise_insertSorted {x : String} : ∀ {l : List String},
    l.Pairwise strLeP → (insertSorted x l).Pairwise strLeP := by
  intro l
  induction l with
  | nil => intro _; simp [insertSorted, strLeP]
  | cons y ys ih =>
    intro h
    rw [insertSorted]
    rcases List.pairwise_cons.mp h with ⟨hy, hys⟩
    by_cases hxy : strLe x y
    · rw [if_pos hxy]
      refine List.pairwise_cons.mpr ⟨?_, h⟩
      intro b hb
      rcases List.mem_cons.mp hb with rfl | hb
      · exact hxy
      · exact strLe_trans hxy (hy b hb)
    · rw [if_neg hxy]
      refine List.pairwise_cons.mpr ⟨?_, ih hys⟩
      intro b hb
      rcases mem_insertSorted.mp hb with rfl | hb
      · rcases strLe_total b y with h1 | h1
        · exact absurd h1 hxy
        · exact h1
      · exact hy b hb

theorem sortStrings_perm : ∀ l : List String, (sortStrings l).Perm l := by
  intro l
  induction l with
  | nil => simp [sortStrings]
  | cons x xs ih =>
    rw [sortStrings]
    exact (insertSorted_perm x (sortStrings xs)).trans (List.Perm.cons x ih)

theorem sortStrings_pairwise : ∀ l : List String,
    (sortStrings l).Pairwise strLeP := by
  intro l
  induction l with
  | nil => simp [sortStrings]
  | cons x xs ih =>
    rw [sortStrings]
    exact pairwise_insertSorted ih

theorem sortStrings_eq_of_perm {l1 l2 : List String} (h : l1.Perm l2) :
    sortStrings l1 = sortStrings l2 := by
  have hp : (sortStrings l1).Perm (sortStrings l2) :=
    ((sortStrings_perm l1).trans h).trans (sortStrings_perm l2).symm
  have : IsAntisymm String strLeP := ⟨fun _ _ => strLe_antisymm⟩
  exact List.eq_of_perm_of_sorted hp (sortStrings_pairwise l1) (sortStrings_pairwise l2)

end SortLemmas

section RenderLemmas

theorem str_append_assoc (a b c : String) : a ++ b ++ c = a ++ (b ++ c) :=
  str_eq_of_data (by simp [data_append])

theorem foldl_modeStep_listRows (lk : Lookup) (mi : ModeMap) (m : String) :
    ∀ (os : List String) (acc : PerRows),
      (os.foldl (modeStep lk mi m) acc).listRows =
        acc.listRows ++
          ((os.filter (fun mo => (List.lookup mo mi).isSome)).map (flatRowOf lk mi m)) := by
  intro os
  induction os with
  | nil => intro acc; simp
  | cons mo os ih =>
    intro acc
    rw [List.foldl_cons, ih]
    rcases h : List.lookup mo mi with _ | info
    · have hstep : (modeStep lk mi m acc mo).listRows = acc.listRows := by
        unfold modeStep
        rw [h]
      rw [hstep, List.filter_cons]
      simp [h]
    · have hstep : (modeStep lk mi m acc mo).listRows =
          acc.listRows ++ [flatRowOf lk mi m mo] := by
        unfold modeStep
        rw [h]
        simp [flatRowOf, h]
      rw [hstep, List.filter_cons]
      simp [h]

/-- The flat-list rows of one mnemonic are exactly one row per populated
mode, in catalog order. -/
theorem perMnemonic_listRows (lk : Lookup) (mi : ModeMap) (m : String) :
    (perMnemonic lk mi m).listRows =
      (lk.order.filter (fun mo => (List.lookup mo mi).isSome)).map (flatRowOf lk mi m) := by
  unfold perMnemonic
  rw [foldl_modeStep_listRows]
  simp [initRows]

theorem foldl_modeStep_tails (lk : Lookup) (mi : ModeMap) (m : String)
    (hv : ∀ p ∈ mi, commaCount p.2 = 3) :
    ∀ (os : List String) (acc : PerRows),
      ∃ tail, (os.foldl (modeStep lk mi m) acc).secondLine = acc.secondLine ++ tail ∧
        (os.foldl (modeStep lk mi m) acc).compactLine = acc.compactLine ++ tail ∧
        commaCount tail = 3 * os.length := by
  intro os
  induction os with
  | nil =>
    intro acc
    refine ⟨"", ?_, ?_, by decide⟩ <;> simp [append_empty_str]
  | cons mo os ih =>
    intro acc
    rw [List.foldl_cons]
    obtain ⟨tail, h1, h2, h3⟩ := ih (modeStep lk mi m acc mo)
    rcases h : List.lookup mo mi with _ | info
    · have hs : (modeStep lk mi m acc mo).secondLine = acc.secondLine ++ ",,," := by
        unfold modeStep
        rw [h]
      have hc : (modeStep lk mi m acc mo).compactLine = acc.compactLine ++ ",,," := by
        unfold modeStep
        rw [h]
      refine ⟨",,," ++ tail, ?_, ?_, ?_⟩
      · rw [h1, hs, str_append_assoc]
      · rw [h2, hc, str_append_assoc]
      · rw [commaCount_append, h3, show commaCount ",,," = 3 from by decide]
        simp only [List.length_cons]
        ring
    · have hs : (modeStep lk mi m acc mo).secondLine = acc.secondLine ++ info := by
        unfold modeStep
        rw [h]
      have hc : (modeStep lk mi m acc mo).compactLine = acc.compactLine ++ info := by
        unfold modeStep
        rw [h]
      refine ⟨info ++ tail, ?_, ?_, ?_⟩
      · rw [h1, hs, str_append_assoc]
      · rw [h2, hc, str_append_assoc]
      · rw [commaCount_append, h3, hv _ (lookup_mem h)]
        simp only [List.length_cons]
        ring

theorem flatMap_if_single {α β : Type} (ms : List α) (p : α → Bool) (f : α → β) :
    (ms.flatMap fun m => if p m then [f m] else []) = (ms.filter p).map f := by
  induction ms with
  | nil => rfl
  | cons x ms ih => by_cases h : p x <;> simp [h, ih]

theorem flatMap_if_pair {α β : Type} (ms : List α) (p : α → Bool) (f g : α → β) :
    (ms.flatMap fun m => if p m then [f m, g m] else []) =
      (ms.filter p).flatMap (fun m => [f m, g m]) := by
  induction ms with
  | nil => rfl
  | cons x ms ih => by_cases h : p x <;> simp [h, ih]

/-- The implicit-only view consists of its header followed by one line per
mnemonic satisfying the implicit-only routing condition. -/
theorem mkViews_implicitOnly (lk : Lookup) (d : Index) :
    (mkViews lk d).implicitOnly =
      ("Opcode," ++ lk.status_byte_header ++ "," ++ "Hex,C,B") ::
        (implicitMnemonics lk d).map (fun m => (rowsFor lk d m).implicitLine) := by
  exact congrArg
    (fun l => ("Opcode," ++ lk.status_byte_header ++ "," ++ "Hex,C,B") :: l)
    (flatMap_if_single (sortedKeys d) (fun m => emitImplicit (rowsFor lk d m))
      (fun m => (rowsFor lk d m).implicitLine))

/-- The full-matrix view consists of its header followed by the label/data
row pair of every mnemonic satisfying the matrix routing condition. -/
theorem mkViews_main (lk : Lookup) (d : Index) :
    (mkViews lk d).main =
      matrixHeader lk ::
        (matrixMnemonics lk d).flatMap
          (fun m => [(rowsFor lk d m).firstLine, (rowsFor lk d m).secondLine]) := by
  exact congrArg (fun l => matrixHeader lk :: l)
    (flatMap_if_pair (sortedKeys d) (fun m => emitMatrix (rowsFor lk d m))
      (fun m => (rowsFor lk d m).firstLine) (fun m => (rowsFor lk d m).secondLine))

/-- The compact-matrix view consists of its header followed by one data row
per matrix mnemonic. -/
theorem mkViews_compact (lk : Lookup) (d : Index) :
    (mkViews lk d).compact =
      matrixHeader lk ::
        (matrixMnemonics lk d).map (fun m => (rowsFor lk d m).compactLine) := by
  exact congrArg (fun l => matrixHeader lk :: l)
    (flatMap_if_single (sortedKeys d) (fun m => emitMatrix (rowsFor lk d m))
      (fun m => (rowsFor lk d m).compactLine))

end RenderLemmas

section ClaimC6

/-- C6: for every CPU identifier that has no registered catalog/cycle data,
the pipeline fails with an unknown-CPU error before producing any output:
no row of any of the five views is emitted. -/
theorem unknown_cpu_no_output (processors : List (String × RawTable))
    (cpuName : String) (u : Bool)
    (h : List.lookup cpuName processors = none ∨
      List.lookup cpuName address_mode_order = none) :
    gen_csv processors cpuName u = .error .unknownCpu := by
  unfold gen_csv
  rcases h1 : List.lookup cpuName processors with _ | table
  · rfl
  · rcases h2 : List.lookup cpuName address_mode_order with _ | lk
    · rfl
    · rcases h with h | h
      · rw [h1] at h; cases h
      · rw [h2] at h; cases h

/-- Witness for C6: requesting the unregistered identifier 6809 when only
6502 is registered aborts with the unknown-CPU error. -/
theorem unknown_cpu_no_output_witness :
    (List.lookup "6809" ([("6502", ([] : RawTable))]) = none ∨
      List.lookup "6809" address_mode_order = none) ∧
    gen_csv [("6502", [])] "6809" false = .error .unknownCpu :=
  ⟨Or.inl rfl, unknown_cpu_no_output _ _ _ (Or.inl rfl)⟩

end ClaimC6

section ClaimC4

/-- C4: a single raw-table slot contributes its (canonical mnemonic,
aliased mode) pair to the built index exactly when the undocumented policy
admits it (the switch is set, or the flag's undocumented bit is clear);
a three-field tuple carries flag 0 and is therefore always included. -/
theorem slot_inclusion_policy (lk : Lookup) (u : Bool) (op : Nat) (e : OpEntry) :
    (List.lookup (aliasedMode lk e)
        (modeInfoOf (buildIndex lk u [(op, e)]) (upperStr e.fields.2.1))).isSome
      = (u || (e.fields.2.2.2 &&& flag_undoc == 0)) ∧
    ∀ nb mn mo, (OpEntry.three nb mn mo).fields.2.2.2 = 0 ∧
      includedSlot u (OpEntry.three nb mn mo) = true := by
  constructor
  · have hrhs : (u || (e.fields.2.2.2 &&& flag_undoc == 0)) = includedSlot u e := rfl
    rw [hrhs]
    have hb : buildIndex lk u [(op, e)] = buildStep lk u [] (op, e) := rfl
    rw [hb]
    unfold buildStep
    cases hin : includedSlot u e
    · rw [if_neg (by simp)]
      simp [modeInfoOf, List.lookup]
    · rw [if_pos rfl]
      unfold dictSet
      rw [if_neg (by simp)]
      simp [modeInfoOf, List.lookup]
  · intro nb mn mo
    refine ⟨rfl, ?_⟩
    simp [includedSlot, OpEntry.fields, flag_undoc]

end ClaimC4

section ClaimC5

/-- C5: every record stored in the built index is the record string of some
raw-table slot, and its rendered cycle portion ends in the `+` marker
exactly when that slot's extra-cycle table entry is positive. -/
theorem extra_cycle_marker {lk : Lookup} {u : Bool} {t : RawTable}
    {m : String} {mi : ModeMap} {q : String × String}
    (hm : (m, mi) ∈ buildIndex lk u t) (hq : q ∈ mi) :
    ∃ s ∈ t,
      q.2 = hex02 s.1 ++ "," ++ cycleField lk s.1 ++ "," ++ natStr s.2.fields.1 ++ "," ∧
      endsInPlus (cycleField lk s.1) = decide (0 < lk.extra_cycles.getD s.1 0) := by
  obtain ⟨s, hs, _, _, hq2⟩ := buildIndex_provenance hm hq
  exact ⟨s, hs, congrArg Prod.snd hq2, endsInPlus_cycleField lk s.1⟩

/-- Witness for C5: the BPL relative record of a one-slot table renders as
`10,2+,2,`, with the `+` present since the extra-cycle entry at opcode 0x10
is 2. -/
theorem extra_cycle_marker_witness :
    (("BPL", ([("relative", "10,2+,2,")] : ModeMap)) ∈
        buildIndex lookup6502 false [(16, OpEntry.three 2 "BPL" "relative")]) ∧
    (("relative", "10,2+,2,") ∈ ([("relative", "10,2+,2,")] : ModeMap)) ∧
    ∃ s ∈ [(16, OpEntry.three 2 "BPL" "relative")],
      ("relative", "10,2+,2,").2 =
        hex02 s.1 ++ "," ++ cycleField lookup6502 s.1 ++ "," ++ natStr s.2.fields.1 ++ "," ∧
      endsInPlus (cycleField lookup6502 s.1) =
        decide (0 < lookup6502.extra_cycles.getD s.1 0) :=
  ⟨by decide, by decide,
    @extra_cycle_marker lookup6502 false [(16, OpEntry.three 2 "BPL" "relative")]
      "BPL" [("relative", "10,2+,2,")] ("relative", "10,2+,2,")
      (by decide) (by decide)⟩

end ClaimC5

section ClaimC10

/-- C10: for a mnemonic holding a relative-mode record, the flat-list row's
quoted instruction field is the mnemonic followed by a single space, since
the operand syntax of the relative mode is the empty string; the row
appears in the flat view. -/
theorem relative_flat_row {lk : Lookup} {u : Bool} {t : RawTable}
    {m : String} {mi : ModeMap} {info : String}
    (h1 : List.lookup m (buildIndex lk u t) = some mi)
    (h2 : List.lookup "relative" mi = some info) :
    operandOf "relative" = "" ∧
    relListRow lk m info = "\"" ++ m ++ " \"," ++ statusOf lk m ++ "," ++ info ∧
    relListRow lk m info ∈ (mkViews lk (buildIndex lk u t)).flat := by
  refine ⟨rfl, ?_, ?_⟩
  · apply str_eq_of_data
    simp [relListRow, data_append, show operandOf "relative" = "" from rfl]
  · have hkey : m ∈ (buildIndex lk u t).map Prod.fst :=
      List.mem_map.mpr ⟨(m, mi), lookup_mem h1, rfl⟩
    have hsorted : m ∈ sortedKeys (buildIndex lk u t) :=
      (sortStrings_perm _).mem_iff.mpr hkey
    have hmi : modeInfoOf (buildIndex lk u t) m = mi := by
      unfold modeInfoOf
      rw [h1]
      rfl
    refine List.mem_flatMap.mpr ⟨m, hsorted, List.mem_append_right _ ?_⟩
    unfold relExtra
    rw [hmi, h2]
    exact List.mem_singleton.mpr rfl

/-- Witness for C10: the BPL relative record yields the flat-list row
whose quoted field is `BPL` followed by one space. -/
theorem relative_flat_row_witness :
    (List.lookup "BPL" (buildIndex lookup6502 false [(16, OpEntry.three 2 "BPL" "relative")])
      = some [("relative", "10,2+,2,")]) ∧
    (List.lookup "relative" ([("relative", "10,2+,2,")] : ModeMap) = some "10,2+,2,") ∧
    (operandOf "relative" = "" ∧
      relListRow lookup6502 "BPL" "10,2+,2," =
        "\"" ++ "BPL" ++ " \"," ++ statusOf lookup6502 "BPL" ++ "," ++ "10,2+,2," ∧
      relListRow lookup6502 "BPL" "10,2+,2," ∈
        (mkViews lookup6502
          (buildIndex lookup6502 false [(16, OpEntry.three 2 "BPL" "relative")])).flat) :=
  ⟨by decide, by decide,
    @relative_flat_row lookup6502 false [(16, OpEntry.three 2 "BPL" "relative")]
      "BPL" [("relative", "10,2+,2,")] "10,2+,2," (by decide) (by decide)⟩

end ClaimC10

section ClaimC7

theorem commaCount_statusOf_6502 (m : String) :
    commaCount (statusOf lookup6502 m) = 7 := by
  unfold statusOf
  rcases h : List.lookup m lookup6502.status_byte with _ | v
  · decide
  · have hv : ∀ p ∈ lookup6502.status_byte, commaCount p.2 = 7 := by decide
    simpa using hv _ (lookup_mem h)

theorem buildIndex_values_three_commas (lk : Lookup) (u : Bool) (t : RawTable)
    (m : String) :
    ∀ p ∈ modeInfoOf (buildIndex lk u t) m, commaCount p.2 = 3 := by
  intro p hp
  unfold modeInfoOf at hp
  rcases h : List.lookup m (buildIndex lk u t) with _ | mi
  · rw [h] at hp
    simp at hp
  · rw [h] at hp
    simp only [Option.getD_some] at hp
    obtain ⟨s, _, _, _, hq⟩ := buildIndex_provenance (lookup_mem h) hp
    rw [show p.2 = recordStr lk s.1 s.2.fields.1 from congrArg Prod.snd hq]
    exact commaCount_recordStr lk s.1 s.2.fields.1

/-- C7: for any raw table and any mnemonic, the full-matrix data row built
for that mnemonic always has exactly 42 commas (43 fields), and the compact
row has the same count and shares with the data row the identical per-mode
tail, so the two layouts align field for field. -/
theorem matrix_column_alignment (u : Bool) (t : RawTable) (m : String)
    (hm : commaCount m = 0) :
    commaCount ((rowsFor lookup6502 (buildIndex lookup6502 u t) m).secondLine) = 42 ∧
    commaCount ((rowsFor lookup6502 (buildIndex lookup6502 u t) m).compactLine) = 42 ∧
    ∃ tail,
      (rowsFor lookup6502 (buildIndex lookup6502 u t) m).secondLine =
        ("," ++ lookup6502.status_byte_empty ++ ",") ++ tail ∧
      (rowsFor lookup6502 (buildIndex lookup6502 u t) m).compactLine =
        (m ++ "," ++ statusOf lookup6502 m ++ ",") ++ tail := by
  have hv := buildIndex_values_three_commas lookup6502 u t m
  obtain ⟨tail, h1, h2, h3⟩ :=
    foldl_modeStep_tails lookup6502 (modeInfoOf (buildIndex lookup6502 u t) m) m hv
      lookup6502.order (initRows lookup6502 m)
  have hr : rowsFor lookup6502 (buildIndex lookup6502 u t) m =
      lookup6502.order.foldl
        (modeStep lookup6502 (modeInfoOf (buildIndex lookup6502 u t) m) m)
        (initRows lookup6502 m) := rfl
  rw [hr]
  have hsecond0 : commaCount ((initRows lookup6502 m).secondLine) = 9 := by
    show commaCount ("," ++ lookup6502.status_byte_empty ++ ",") = 9
    decide
  have hcompact0 : commaCount ((initRows lookup6502 m).compactLine) = 9 := by
    show commaCount (m ++ "," ++ statusOf lookup6502 m ++ ",") = 9
    rw [commaCount_append, commaCount_append, commaCount_append, hm,
      commaCount_statusOf_6502]
    decide
  refine ⟨?_, ?_, tail, h1, h2⟩
  · rw [h1, commaCount_append, hsecond0, h3]
    decide
  · rw [h2, commaCount_append, hcompact0, h3]
    decide

/-- Witness for C7 at the mnemonic BRK of a one-slot table. -/
theorem matrix_column_alignment_witness :
    commaCount "BRK" = 0 ∧
    (commaCount ((rowsFor lookup6502
        (buildIndex lookup6502 false [(0, OpEntry.three 1 "BRK" "implicit")])
        "BRK").secondLine) = 42 ∧
      commaCount ((rowsFor lookup6502
        (buildIndex lookup6502 false [(0, OpEntry.three 1 "BRK" "implicit")])
        "BRK").compactLine) = 42 ∧
      ∃ tail,
        (rowsFor lookup6502
            (buildIndex lookup6502 false [(0, OpEntry.three 1 "BRK" "implicit")])
            "BRK").secondLine =
          ("," ++ lookup6502.status_byte_empty ++ ",") ++ tail ∧
        (rowsFor lookup6502
            (buildIndex lookup6502 false [(0, OpEntry.three 1 "BRK" "implicit")])
            "BRK").compactLine =
          ("BRK" ++ "," ++ statusOf lookup6502 "BRK" ++ ",") ++ tail) :=
  ⟨by decide,
    matrix_column_alignment false [(0, OpEntry.three 1 "BRK" "implicit")] "BRK" (by decide)⟩

end ClaimC7

section ClaimC1

theorem emit_disjoint_bool (r : PerRows) : (emitImplicit r && emitMatrix r) = false := by
  unfold emitImplicit emitMatrix
  cases h : (r.foundImplicit && r.foundMode == 1) <;> simp [h]

theorem emit_union_bool (r : PerRows) :
    (emitImplicit r || emitMatrix r) = (r.foundMode != 0) := by
  unfold emitImplicit emitMatrix
  cases h : (r.foundImplicit && r.foundMode == 1) <;> simp [h]

/-- C1 (amended): the implicit-only mnemonics and the matrix mnemonics are
disjoint, and together they cover exactly the index mnemonics that have at
least one mode listed in the catalog order; those two mnemonic lists are
exactly what the implicit-only and full-matrix views render, one (pair of)
row(s) each, after their headers.  A mnemonic all of whose populated modes
lie outside the catalog order appears in neither view. -/
theorem matrix_implicit_partition (lk : Lookup) (d : Index) :
    (implicitMnemonics lk d).inter (matrixMnemonics lk d) = [] ∧
    (sortedKeys d).filter
        (fun m => emitImplicit (rowsFor lk d m) || emitMatrix (rowsFor lk d m)) =
      (sortedKeys d).filter (fun m => (rowsFor lk d m).foundMode != 0) ∧
    (sortedKeys d).Perm (d.map Prod.fst) ∧
    (mkViews lk d).implicitOnly =
      ("Opcode," ++ lk.status_byte_header ++ "," ++ "Hex,C,B") ::
        (implicitMnemonics lk d).map (fun m => (rowsFor lk d m).implicitLine) ∧
    (mkViews lk d).main =
      matrixHeader lk ::
        (matrixMnemonics lk d).flatMap
          (fun m => [(rowsFor lk d m).firstLine, (rowsFor lk d m).secondLine]) := by
  refine ⟨?_, ?_, sortStrings_perm _, mkViews_implicitOnly lk d, mkViews_main lk d⟩
  · refine List.eq_nil_iff_forall_not_mem.mpr ?_
    intro m hmem
    have hmI : m ∈ implicitMnemonics lk d := List.mem_of_mem_inter_left hmem
    have hmM : m ∈ matrixMnemonics lk d := List.mem_of_mem_inter_right hmem
    have hI := (List.mem_filter.mp hmI).2
    have hM := (List.mem_filter.mp hmM).2
    have hd := emit_disjoint_bool (rowsFor lk d m)
    rw [hI, hM] at hd
    cases hd
  · exact List.filter_congr (fun m _ => emit_union_bool (rowsFor lk d m))

/-- Counterexample to C1 as stated: BPL, whose only populated mode is
relative, is a mnemonic of the built index yet is emitted by neither the
implicit-only view nor the full matrix (both views hold only their header
row), so the union of the two views' mnemonic sets misses it. -/
theorem matrix_implicit_partition_counterexample :
    sortedKeys (buildIndex lookup6502 false
        [(16, OpEntry.three 2 "BPL" "relative")]) = ["BPL"] ∧
    implicitMnemonics lookup6502 (buildIndex lookup6502 false
        [(16, OpEntry.three 2 "BPL" "relative")]) = [] ∧
    matrixMnemonics lookup6502 (buildIndex lookup6502 false
        [(16, OpEntry.three 2 "BPL" "relative")]) = [] ∧
    (mkViews lookup6502 (buildIndex lookup6502 false
        [(16, OpEntry.three 2 "BPL" "relative")])).main.length = 1 ∧
    (mkViews lookup6502 (buildIndex lookup6502 false
        [(16, OpEntry.three 2 "BPL" "relative")])).implicitOnly.length = 1 := by
  decide

end ClaimC1

section ClaimC2

theorem any_map_fn {γ δ : Type} (l : List γ) (f : γ → δ) (p : δ → Bool) :
    (l.map f).any p = l.any (fun x => p (f x)) := by
  induction l with
  | nil => rfl
  | cons x l ih => simp [ih]

theorem any_fst_shape (d : Index) (m : String) :
    (indexShape d).any (fun p => p.1 == m) = d.any (fun p => p.1 == m) := by
  unfold indexShape
  rw [any_map_fn]

theorem assocSet_keys_modeKeySet (mi : ModeMap) (k v : String) :
    (assocSet mi k v).map Prod.fst = modeKeySet (mi.map Prod.fst) k := by
  rw [assocSet_keys]
  unfold modeKeySet
  rw [any_map_fn]

theorem indexShape_dictSet (d : Index) (m mo v : String) :
    indexShape (dictSet d m mo v) = shapeSet (indexShape d) m mo := by
  unfold dictSet shapeSet
  rw [any_fst_shape]
  by_cases h : d.any (fun p => p.1 == m)
  · rw [if_pos h, if_pos h]
    unfold indexShape
    rw [List.map_map, List.map_map]
    refine List.map_congr_left ?_
    intro p _
    by_cases hp : p.1 = m
    · simp [Function.comp_apply, hp, assocSet_keys_modeKeySet]
    · simp [Function.comp_apply, hp]
  · rw [if_neg h, if_neg h]
    unfold indexShape
    rw [List.map_append]
    rfl

theorem indexShape_buildStep (lk : Lookup) (u : Bool) (d : Index)
    (s : Nat × OpEntry) :
    indexShape (buildStep lk u d s) =
      if includedSlot u s.2 then
        shapeSet (indexShape d) (upperStr s.2.fields.2.1) (aliasedMode lk s.2)
      else indexShape d := by
  unfold buildStep
  by_cases h : includedSlot u s.2
  · rw [if_pos h, if_pos h, indexShape_dictSet]
  · rw [if_neg h, if_neg h]

/-- C2 (amended): the build applies no zero-cost filter.  Which (mnemonic,
mode) cells the index contains is decided solely by the raw table and the
undocumented policy: it is identical under any two cycle/extra-cycle
tables (any two lookups sharing the aliasing map).  In particular a slot
whose base cycle cost is 0 is still emitted; only absence from the raw
table or the undocumented policy suppresses emission. -/
theorem zero_cost_no_filter {lk1 lk2 : Lookup} (hmap : lk1.map = lk2.map)
    (u : Bool) (t : RawTable) :
    indexShape (buildIndex lk1 u t) = indexShape (buildIndex lk2 u t) := by
  suffices h : ∀ (l : RawTable) (d1 d2 : Index), indexShape d1 = indexShape d2 →
      indexShape (l.foldl (buildStep lk1 u) d1) =
        indexShape (l.foldl (buildStep lk2 u) d2) by
    exact h t [] [] rfl
  intro l
  induction l with
  | nil =>
    intro d1 d2 hd
    simpa using hd
  | cons s l ih =>
    intro d1 d2 hd
    refine ih _ _ ?_
    rw [indexShape_buildStep, indexShape_buildStep, hd]
    have ha : aliasedMode lk1 s.2 = aliasedMode lk2 s.2 := by
      unfold aliasedMode
      rw [hmap]
    rw [ha]

/-- Witness for C2's amended statement: emptying the cycle tables leaves
the index cells of a one-slot table unchanged. -/
theorem zero_cost_no_filter_witness :
    lookup6502NoCycles.map = lookup6502.map ∧
    indexShape (buildIndex lookup6502NoCycles false
        [(2, OpEntry.three 1 "XXX" "immediate")]) =
      indexShape (buildIndex lookup6502 false
        [(2, OpEntry.three 1 "XXX" "immediate")]) :=
  ⟨rfl, zero_cost_no_filter rfl false [(2, OpEntry.three 1 "XXX" "immediate")]⟩

/-- Counterexample to C2 as stated: opcode 0x02 has base cycle cost 0 in
the registered 6502 cycle table, yet a raw-table slot at that opcode is
rendered as a real instruction (here in the flat list, with cycle text 0). -/
theorem zero_cost_emitted_counterexample :
    lookup6502.cycles.getD 2 0 = 0 ∧
    (mkViews lookup6502 (buildIndex lookup6502 false
        [(2, OpEntry.three 1 "XXX" "immediate")])).flat =
      ["\"XXX #nn\",,,,,,,,,02,0,1,"] := by
  decide

end ClaimC2

section ClaimC3

theorem pairCount_eq_keyPairs_length (d : Index) :
    pairCount d = (keyPairs d).length := by
  unfold pairCount keyPairs
  induction d with
  | nil => rfl
  | cons p d ih => simp [ih]

theorem fst_mem_of_mem_keyPairs {d : Index} {x : String × String}
    (h : x ∈ keyPairs d) : x.1 ∈ d.map Prod.fst := by
  unfold keyPairs at h
  obtain ⟨p, hp, hx⟩ := List.mem_flatMap.mp h
  obtain ⟨q, _, hq⟩ := List.mem_map.mp hx
  exact List.mem_map.mpr ⟨p, hp, congrArg Prod.fst hq⟩

theorem mem_keys_assocSet {mi : ModeMap} {k v mo : String} :
    mo ∈ (assocSet mi k v).map Prod.fst ↔ mo ∈ mi.map Prod.fst ∨ mo = k := by
  rw [assocSet_keys]
  by_cases h : mi.any (fun p => p.1 == k)
  · rw [if_pos h]
    constructor
    · exact Or.inl
    · rintro (h1 | rfl)
      · exact h1
      · exact any_key_iff.mp h
  · rw [if_neg h]
    simp [List.mem_append]

theorem mem_keyPairs_dictSet {d : Index} {m mo v : String} {x : String × String} :
    x ∈ keyPairs (dictSet d m mo v) ↔ x ∈ keyPairs d ∨ x = (m, mo) := by
  unfold dictSet
  by_cases h : d.any (fun p => p.1 == m)
  · rw [if_pos h]
    constructor
    · intro hx
      obtain ⟨p, hp, hxp⟩ := List.mem_flatMap.mp hx
      obtain ⟨p0, hp0, hgp⟩ := List.mem_map.mp hp
      by_cases hm0 : p0.1 = m
      · rw [if_pos (show (p0.1 == m) = true from beq_iff_eq.mpr hm0)] at hgp
        subst hgp
        obtain ⟨q, hq, hxq⟩ := List.mem_map.mp hxp
        rcases assocSet_mem hq with h1 | h1
        · left
          refine List.mem_flatMap.mpr ⟨p0, hp0, List.mem_map.mpr ⟨q, h1, ?_⟩⟩
          rw [hm0]
          exact hxq
        · right
          rw [← hxq, h1]
      · rw [if_neg (by simpa using hm0)] at hgp
        subst hgp
        exact Or.inl (List.mem_flatMap.mpr ⟨p0, hp0, hxp⟩)
    · intro hx
      rcases hx with hx | rfl
      · obtain ⟨p, hp, hxp⟩ := List.mem_flatMap.mp hx
        refine List.mem_flatMap.mpr
          ⟨if (p.1 == m) = true then (m, assocSet p.2 mo v) else p,
            List.mem_map.mpr ⟨p, hp, rfl⟩, ?_⟩
        by_cases hm0 : p.1 = m
        · rw [if_pos (show (p.1 == m) = true from beq_iff_eq.mpr hm0)]
          obtain ⟨q, hq, hxq⟩ := List.mem_map.mp hxp
          have hk : q.1 ∈ (assocSet p.2 mo v).map Prod.fst :=
            mem_keys_assocSet.mpr (Or.inl (List.mem_map.mpr ⟨q, hq, rfl⟩))
          obtain ⟨q', hq', hq'1⟩ := List.mem_map.mp hk
          refine List.mem_map.mpr ⟨q', hq', ?_⟩
          rw [show ((m, assocSet p.2 mo v) : String × ModeMap).1 = m from rfl,
            hq'1, ← hm0]
          exact hxq
        · rw [if_neg (by simpa using hm0)]
          exact hxp
      · obtain ⟨p0, hp0, hm0⟩ := List.mem_map.mp (any_key_iff.mp h)
        refine List.mem_flatMap.mpr
          ⟨(m, assocSet p0.2 mo v),
            List.mem_map.mpr
              ⟨p0, hp0, by rw [if_pos (show (p0.1 == m) = true from beq_iff_eq.mpr hm0)]⟩,
            ?_⟩
        have hk : mo ∈ (assocSet p0.2 mo v).map Prod.fst :=
          mem_keys_assocSet.mpr (Or.inr rfl)
        obtain ⟨q', hq', hq'1⟩ := List.mem_map.mp hk
        refine List.mem_map.mpr ⟨q', hq', ?_⟩
        rw [show ((m, assocSet p0.2 mo v) : String × ModeMap).1 = m from rfl, hq'1]
  · rw [if_neg h]
    unfold keyPairs
    rw [List.flatMap_append]
    simp [List.mem_append]

theorem keyPairs_nodup {d : Index} (h1 : (d.map Prod.fst).Nodup)
    (h2 : ∀ p ∈ d, ((p.2.map Prod.fst) : List String).Nodup) :
    (keyPairs d).Nodup := by
  induction d with
  | nil => simp [keyPairs]
  | cons p d ih =>
    have hp2 : ((p.2.map Prod.fst) : List String).Nodup := h2 p (List.mem_cons_self ..)
    have hleft : (p.2.map (fun q => (p.1, q.1))).Nodup := by
      have : p.2.map (fun q => (p.1, q.1)) = (p.2.map Prod.fst).map (fun k => (p.1, k)) := by
        rw [List.map_map]
        rfl
      rw [this]
      exact hp2.map (fun k1 k2 hk => by
        simpa using congrArg Prod.snd hk)
    have hdis : (p.2.map (fun q => (p.1, q.1))).Disjoint (keyPairs d) := by
      intro x hx1 hx2
      obtain ⟨q, _, hq⟩ := List.mem_map.mp hx1
      have hx1' : x.1 = p.1 := by rw [← hq]
      have hmem := fst_mem_of_mem_keyPairs hx2
      rw [hx1'] at hmem
      exact (List.nodup_cons.mp h1).1 hmem
    have : keyPairs (p :: d) = p.2.map (fun q => (p.1, q.1)) ++ keyPairs d := by
      unfold keyPairs
      rw [List.flatMap_cons]
    rw [this]
    exact List.Nodup.append hleft
      (ih (List.nodup_cons.mp h1).2 (fun r hr => h2 r (List.mem_cons_of_mem _ hr))) hdis

theorem mem_keyPairs_buildStep_of_mem {lk : Lookup} {u : Bool} {d : Index}
    {s : Nat × OpEntry} {x : String × String}
    (h : x ∈ keyPairs d) : x ∈ keyPairs (buildStep lk u d s) := by
  unfold buildStep
  by_cases hin : includedSlot u s.2
  · rw [if_pos hin]
    exact mem_keyPairs_dictSet.mpr (Or.inl h)
  · rwa [if_neg hin]

theorem slotKey_mem_keyPairs_buildStep {lk : Lookup} {u : Bool} {d : Index}
    {s : Nat × OpEntry} (hin : includedSlot u s.2 = true) :
    slotKey lk s ∈ keyPairs (buildStep lk u d s) := by
  unfold buildStep
  rw [if_pos hin]
  exact mem_keyPairs_dictSet.mpr (Or.inr rfl)

theorem mem_keyPairs_foldl {lk : Lookup} {u : Bool} : ∀ {t : RawTable} {d : Index}
    {x : String × String},
    x ∈ keyPairs (t.foldl (buildStep lk u) d) ↔
      x ∈ keyPairs d ∨ ∃ s ∈ t, includedSlot u s.2 = true ∧ x = slotKey lk s := by
  intro t
  induction t with
  | nil =>
    intro d x
    simp
  | cons s t ih =>
    intro d x
    rw [List.foldl_cons, ih]
    constructor
    · rintro (hx | ⟨s', hs', hin, rfl⟩)
      · unfold buildStep at hx
        by_cases hin : includedSlot u s.2
        · rw [if_pos hin] at hx
          rcases mem_keyPairs_dictSet.mp hx with h1 | h1
          · exact Or.inl h1
          · exact Or.inr ⟨s, List.mem_cons_self .., hin, h1⟩
        · rw [if_neg hin] at hx
          exact Or.inl hx
      · exact Or.inr ⟨s', List.mem_cons_of_mem _ hs', hin, rfl⟩
    · rintro (hx | ⟨s', hs', hin, rfl⟩)
      · exact Or.inl (mem_keyPairs_buildStep_of_mem hx)
      · rcases List.mem_cons.mp hs' with heq | hs'
        · subst heq
          exact Or.inl (slotKey_mem_keyPairs_buildStep hin)
        · exact Or.inr ⟨s', hs', hin, rfl⟩

theorem mem_keyPairs_buildIndex {lk : Lookup} {u : Bool} {t : RawTable}
    {x : String × String} :
    x ∈ keyPairs (buildIndex lk u t) ↔ x ∈ includedKeys lk u t := by
  unfold buildIndex includedKeys
  rw [mem_keyPairs_foldl]
  constructor
  · rintro (hx | ⟨s, hs, hin, rfl⟩)
    · simp [keyPairs] at hx
    · exact List.mem_map.mpr ⟨s, List.mem_filter.mpr ⟨hs, hin⟩, rfl⟩
  · intro hx
    obtain ⟨s, hs, rfl⟩ := List.mem_map.mp hx
    exact Or.inr ⟨s, (List.mem_filter.mp hs).1, (List.mem_filter.mp hs).2, rfl⟩

/-- C3 (amended): the number of populated (mnemonic, mode) pairs in the
built index equals the number of DISTINCT canonical keys (upper-cased
mnemonic, aliased mode) among the non-excluded raw-table slots.  It equals
the non-excluded slot count only when those keys are pairwise distinct:
the dictionary assignment overwrites on a key collision, so aliasing (or
any duplicate key) CAN drop an entry. -/
theorem build_pair_count (lk : Lookup) (u : Bool) (t : RawTable) :
    pairCount (buildIndex lk u t) = (includedKeys lk u t).toFinset.card := by
  rw [pairCount_eq_keyPairs_length]
  have hnod : (keyPairs (buildIndex lk u t)).Nodup :=
    keyPairs_nodup (buildIndex_keys_nodup lk u t) (buildIndex_inner_nodup lk u t)
  rw [← List.toFinset_card_of_nodup hnod]
  congr 1
  apply Finset.ext
  intro x
  simp only [List.mem_toFinset]
  exact mem_keyPairs_buildIndex

/-- Counterexample to C3 as stated: two non-excluded slots (ASL accumulator
at 0x0a and a hypothetical ASL implicit at 0x14) collide on the key
(ASL, implicit) after aliasing, so the build yields one populated pair from
two non-excluded slots. -/
theorem build_pair_count_counterexample :
    pairCount (buildIndex lookup6502 false
      [(10, OpEntry.three 1 "ASL" "accumulator"),
       (20, OpEntry.three 1 "ASL" "implicit")]) = 1 ∧
    (([(10, OpEntry.three 1 "ASL" "accumulator"),
       (20, OpEntry.three 1 "ASL" "implicit")] : RawTable).filter
        (fun s => includedSlot false s.2)).length = 2 := by
  decide

end ClaimC3

section ClaimC8

theorem relExtra_filter (lk : Lookup) (d : Index) (m : String) :
    relExtra lk d m =
      (["relative"].filter
          (fun mo => (List.lookup mo (modeInfoOf d m)).isSome)).map
        (flatRowOf lk (modeInfoOf d m) m) := by
  unfold relExtra
  rcases h : List.lookup "relative" (modeInfoOf d m) with _ | info
  · simp [h]
  · simp only [h, List.filter]
    simp [flatRowOf, relListRow, h]

/-- The flat view is the flatMap, over the sorted mnemonics, of one row per
populated mode taken in catalog order with relative last. -/
theorem mkViews_flat (lk : Lookup) (d : Index) :
    (mkViews lk d).flat =
      (sortedKeys d).flatMap (fun m =>
        ((lk.order ++ ["relative"]).filter
            (fun mo => (List.lookup mo (modeInfoOf d m)).isSome)).map
          (flatRowOf lk (modeInfoOf d m) m)) := by
  show (sortedKeys d).flatMap (fun m => (rowsFor lk d m).listRows ++ relExtra lk d m) = _
  refine congrArg (List.flatMap (sortedKeys d)) (funext fun m => ?_)
  rw [show (rowsFor lk d m).listRows =
      (lk.order.filter (fun mo => (List.lookup mo (modeInfoOf d m)).isSome)).map
        (flatRowOf lk (modeInfoOf d m) m) from perMnemonic_listRows lk _ m,
    relExtra_filter, List.filter_append, List.map_append]

theorem filter_length_of_keys {os : List String} {mi : ModeMap}
    (hos : os.Nodup) (hmi : (mi.map Prod.fst).Nodup)
    (hsub : ∀ k ∈ mi.map Prod.fst, k ∈ os) :
    (os.filter (fun mo => (List.lookup mo mi).isSome)).length = mi.length := by
  have hperm : (os.filter (fun mo => (List.lookup mo mi).isSome)).Perm
      (mi.map Prod.fst) := by
    rw [List.perm_ext_iff_of_nodup (hos.filter _) hmi]
    intro k
    simp only [List.mem_filter]
    constructor
    · rintro ⟨_, hk⟩
      exact lookup_isSome_iff.mp hk
    · intro hk
      exact ⟨hsub k hk, lookup_isSome_iff.mpr hk⟩
  rw [hperm.length_eq, List.length_map]

theorem sum_modeInfo_lengths {d : Index} (h : (d.map Prod.fst).Nodup) :
    ((d.map Prod.fst).map (fun m => (modeInfoOf d m).length)).sum = pairCount d := by
  unfold pairCount
  rw [List.map_map]
  refine congrArg List.sum (List.map_congr_left ?_)
  intro p hp
  have hlk : List.lookup p.1 d = some p.2 := mem_lookup h (by simpa using hp)
  show (modeInfoOf d p.1).length = p.2.length
  unfold modeInfoOf
  rw [hlk]
  rfl

/-- C8: the flat list contains exactly one row per (mnemonic, mode) pair of
the built index, with mnemonics sorted lexicographically and, within each
mnemonic, modes in catalog order (the relative mode last); no
matrix-exclusion is applied.  The hypothesis asks that every included
slot's aliased mode belong to the catalog (order list or relative), which
holds for all genuine 6502 mode names. -/
theorem flat_list_complete (u : Bool) (t : RawTable)
    (H : ∀ s ∈ t, includedSlot u s.2 = true →
      aliasedMode lookup6502 s.2 ∈ lookup6502.order ∨
        aliasedMode lookup6502 s.2 = "relative") :
    (mkViews lookup6502 (buildIndex lookup6502 u t)).flat =
      (sortedKeys (buildIndex lookup6502 u t)).flatMap (fun m =>
        ((lookup6502.order ++ ["relative"]).filter
            (fun mo =>
              (List.lookup mo (modeInfoOf (buildIndex lookup6502 u t) m)).isSome)).map
          (flatRowOf lookup6502 (modeInfoOf (buildIndex lookup6502 u t) m) m)) ∧
    (sortedKeys (buildIndex lookup6502 u t)).Pairwise strLeP ∧
    (sortedKeys (buildIndex lookup6502 u t)).Perm
      ((buildIndex lookup6502 u t).map Prod.fst) ∧
    (mkViews lookup6502 (buildIndex lookup6502 u t)).flat.length =
      pairCount (buildIndex lookup6502 u t) := by
  refine ⟨mkViews_flat _ _, sortStrings_pairwise _, sortStrings_perm _, ?_⟩
  have hnod := buildIndex_keys_nodup lookup6502 u t
  have hinner := buildIndex_inner_nodup lookup6502 u t
  have hrange : ∀ p ∈ buildIndex lookup6502 u t,
      ∀ k ∈ p.2.map Prod.fst, k ∈ lookup6502.order ++ ["relative"] := by
    intro p hp k hk
    obtain ⟨q, hq, rfl⟩ := List.mem_map.mp hk
    obtain ⟨s, hs, hin, _, hqe⟩ :=
      buildIndex_provenance (show (p.1, p.2) ∈ buildIndex lookup6502 u t by simpa using hp) hq
    rw [show q.1 = aliasedMode lookup6502 s.2 from congrArg Prod.fst hqe]
    rcases H s hs hin with h | h
    · exact List.mem_append_left _ h
    · rw [h]
      exact List.mem_append_right _ (List.mem_singleton.mpr rfl)
  have hlen : ∀ m ∈ sortedKeys (buildIndex lookup6502 u t),
      ((lookup6502.order ++ ["relative"]).filter
          (fun mo =>
            (List.lookup mo (modeInfoOf (buildIndex lookup6502 u t) m)).isSome)).length
        = (modeInfoOf (buildIndex lookup6502 u t) m).length := by
    intro m hm
    have hkeys : m ∈ (buildIndex lookup6502 u t).map Prod.fst :=
      (sortStrings_perm _).mem_iff.mp hm
    obtain ⟨p, hp, hpm⟩ := List.mem_map.mp hkeys
    have hlk : List.lookup m (buildIndex lookup6502 u t) = some p.2 :=
      mem_lookup hnod (by rw [← hpm]; simpa using hp)
    have hmi : modeInfoOf (buildIndex lookup6502 u t) m = p.2 := by
      unfold modeInfoOf
      rw [hlk]
      rfl
    rw [hmi]
    refine filter_length_of_keys (by decide) (hinner p hp) ?_
    exact fun k hk => hrange p hp k hk
  rw [mkViews_flat, List.length_flatMap]
  simp only [Function.comp_def]
  have hmaps : ((sortedKeys (buildIndex lookup6502 u t)).map (fun m =>
      (((lookup6502.order ++ ["relative"]).filter
          (fun mo =>
            (List.lookup mo (modeInfoOf (buildIndex lookup6502 u t) m)).isSome)).map
        (flatRowOf lookup6502 (modeInfoOf (buildIndex lookup6502 u t) m) m)).length)) =
      (sortedKeys (buildIndex lookup6502 u t)).map
        (fun m => (modeInfoOf (buildIndex lookup6502 u t) m).length) := by
    refine List.map_congr_left ?_
    intro m hm
    rw [List.length_map]
    exact hlen m hm
  rw [hmaps]
  have hperm : (List.map (fun m => List.length (modeInfoOf (buildIndex lookup6502 u t) m))
      (sortedKeys (buildIndex lookup6502 u t))).Perm
      (List.map (fun m => List.length (modeInfoOf (buildIndex lookup6502 u t) m))
        ((buildIndex lookup6502 u t).map Prod.fst)) :=
    List.Perm.map _ (sortStrings_perm _)
  rw [hperm.sum_eq]
  exact sum_modeInfo_lengths hnod

/-- Witness for C8 at a four-slot table covering implicit, relative,
accumulator-aliased and immediate modes. -/
theorem flat_list_complete_witness :
    (∀ s ∈ sampleTable, includedSlot false s.2 = true →
      aliasedMode lookup6502 s.2 ∈ lookup6502.order ∨
        aliasedMode lookup6502 s.2 = "relative") ∧
    (mkViews lookup6502 (buildIndex lookup6502 false sampleTable)).flat.length =
      pairCount (buildIndex lookup6502 false sampleTable) :=
  ⟨by decide, (flat_list_complete false sampleTable (by decide)).2.2.2⟩

end ClaimC8

section ClaimC9

theorem lookup_eq_of_innerSub {a b : ModeMap} (hab : innerSub a b)
    (hba : innerSub b a) (mo : String) :
    List.lookup mo a = List.lookup mo b := by
  rcases h1 : List.lookup mo a with _ | v
  · rcases h2 : List.lookup mo b with _ | w
    · rfl
    · have h3 := hba (mo, w) (lookup_mem h2)
      rw [h1] at h3
      cases h3
  · exact (hab (mo, v) (lookup_mem h1)).symm

theorem perMnemonic_congr {lk : Lookup} {mi1 mi2 : ModeMap} {m : String}
    (h : ∀ mo, List.lookup mo mi1 = List.lookup mo mi2) :
    perMnemonic lk mi1 m = perMnemonic lk mi2 m := by
  unfold perMnemonic
  have hstep : modeStep lk mi1 m = modeStep lk mi2 m := by
    funext acc mo
    unfold modeStep
    rw [h mo]
  rw [hstep]

theorem modeLookup_eq_of_indexEquiv {d1 d2 : Index}
    (hn2 : (d2.map Prod.fst).Nodup)
    (he : indexEquiv d1 d2) (m : String) :
    ∀ mo, List.lookup mo (modeInfoOf d1 m) = List.lookup mo (modeInfoOf d2 m) := by
  intro mo
  obtain ⟨hperm, hsub⟩ := he
  rcases h1 : List.lookup m d1 with _ | mi1
  · have hk1 : m ∉ d1.map Prod.fst := lookup_eq_none_iff.mp h1
    have hk2 : m ∉ d2.map Prod.fst := fun hm => hk1 (hperm.mem_iff.mpr hm)
    have h2 : List.lookup m d2 = none := lookup_eq_none_iff.mpr hk2
    unfold modeInfoOf
    rw [h1, h2]
  · have hmem1 : (m, mi1) ∈ d1 := lookup_mem h1
    have hk2 : m ∈ d2.map Prod.fst :=
      hperm.mem_iff.mp (List.mem_map.mpr ⟨(m, mi1), hmem1, rfl⟩)
    obtain ⟨p2, hp2, hp2m⟩ := List.mem_map.mp hk2
    have h2 : List.lookup m d2 = some p2.2 :=
      mem_lookup hn2 (by rw [← hp2m]; simpa using hp2)
    obtain ⟨hs12, hs21⟩ := hsub (m, mi1) hmem1 p2 hp2 hp2m.symm
    unfold modeInfoOf
    rw [h1, h2]
    exact lookup_eq_of_innerSub hs12 hs21 mo

/-- C9: rendering is a pure function of the built index content.  Two
indexes with the same mnemonic keys (as a multiset, keys unduplicated) and
pointwise-equal mode dictionaries render identically on all five views,
even when their association lists are ordered differently; and running the
pipeline twice on the same inputs trivially yields the same output, the
embedding being stateless. -/
theorem render_pure_of_index (lk : Lookup) (d1 d2 : Index)
    (hn1 : (d1.map Prod.fst).Nodup) (hn2 : (d2.map Prod.fst).Nodup)
    (he : indexEquiv d1 d2) :
    mkViews lk d1 = mkViews lk d2 ∧
    ∀ (procs : List (String × RawTable)) (cpu : String) (u : Bool),
      gen_csv procs cpu u = gen_csv procs cpu u := by
  refine ⟨?_, fun _ _ _ => rfl⟩
  have hms : sortedKeys d1 = sortedKeys d2 := by
    unfold sortedKeys
    exact sortStrings_eq_of_perm he.1
  have hlook := modeLookup_eq_of_indexEquiv hn2 he
  have hrows : ∀ m, rowsFor lk d1 m = rowsFor lk d2 m := fun m =>
    perMnemonic_congr (hlook m)
  have hrel : ∀ m, relExtra lk d1 m = relExtra lk d2 m := by
    intro m
    unfold relExtra
    rw [hlook m "relative"]
  unfold mkViews
  rw [hms]
  have h1 : (fun m => let r := rowsFor lk d1 m
        ; if emitMatrix r then [r.firstLine, r.secondLine] else [])
      = (fun m => let r := rowsFor lk d2 m
        ; if emitMatrix r then [r.firstLine, r.secondLine] else []) :=
    funext fun m => by rw [hrows m]
  have h2 : (fun m => let r := rowsFor lk d1 m
        ; if emitMatrix r then [r.compactLine] else [])
      = (fun m => let r := rowsFor lk d2 m
        ; if emitMatrix r then [r.compactLine] else []) :=
    funext fun m => by rw [hrows m]
  have h3 : (fun m => let r := rowsFor lk d1 m
        ; if emitImplicit r then [r.implicitLine] else [])
      = (fun m => let r := rowsFor lk d2 m
        ; if emitImplicit r then [r.implicitLine] else []) :=
    funext fun m => by rw [hrows m]
  have h4 : (fun m => (rowsFor lk d1 m).listRows ++ relExtra lk d1 m)
      = (fun m => (rowsFor lk d2 m).listRows ++ relExtra lk d2 m) :=
    funext fun m => by rw [hrows m, hrel m]
  have h5 : (fun m => (List.lookup "relative" (modeInfoOf d1 m)).map
        (fun info => m ++ "," ++ firstField info ++ ",,2,3,4"))
      = (fun m => (List.lookup "relative" (modeInfoOf d2 m)).map
        (fun info => m ++ "," ++ firstField info ++ ",,2,3,4")) :=
    funext fun m => by rw [hlook m "relative"]
  rw [h1, h2, h3, h4, h5]

/-- Witness for C9: two differently-ordered association lists with the same
content render to the same five views. -/
theorem render_pure_of_index_witness :
    (([("LDA", [("immediate", "a9,2,2,")]), ("NOP", [("implicit", "ea,2,1,")])]
        : Index).map Prod.fst).Nodup ∧
    (([("NOP", [("implicit", "ea,2,1,")]), ("LDA", [("immediate", "a9,2,2,")])]
        : Index).map Prod.fst).Nodup ∧
    indexEquiv
      [("LDA", [("immediate", "a9,2,2,")]), ("NOP", [("implicit", "ea,2,1,")])]
      [("NOP", [("implicit", "ea,2,1,")]), ("LDA", [("immediate", "a9,2,2,")])] ∧
    mkViews lookup6502
        [("LDA", [("immediate", "a9,2,2,")]), ("NOP", [("implicit", "ea,2,1,")])] =
      mkViews lookup6502
        [("NOP", [("implicit", "ea,2,1,")]), ("LDA", [("immediate", "a9,2,2,")])] :=
  ⟨by decide, by decide, by decide,
    (render_pure_of_index lookup6502
      [("LDA", [("immediate", "a9,2,2,")]), ("NOP", [("implicit", "ea,2,1,")])]
      [("NOP", [("implicit", "ea,2,1,")]), ("LDA", [("immediate", "a9,2,2,")])]
      (by decide) (by decide) (by decide)).1⟩

end ClaimC9

end Refcard
